import Mathlib

/-!
Verification of the Part-7 sonnet search engine (`part7/app.py`, `part7/models.py`).

Strings are modelled as `List Char`; Python slices `text[i:j]` (with their
clamping behaviour for out-of-range indices) become `pySlice`, and Python's
`str.lower()` becomes `lowerStr`, the concatenation of per-character
lowercase mappings — including the one Unicode lowercase mapping that
changes length (U+0130), so lower-casing is not length-preserving, exactly
as in Python.  Spans are pairs of natural numbers.  Python's `sorted` on spans (lexicographic on pairs) and on
line matches (by `line_no`) is modelled with `List.insertionSort`; since the
span order is antisymmetric and line numbers are unique wherever the code
sorts them, any sorting algorithm produces the same list as Python's stable
sort.  The Python `dict` keyed by `line_no` in `combine_results` is modelled
as an association list in insertion order with overwrite-on-duplicate-key
(`buildDict`), exactly Python's dict-comprehension semantics.
-/

/-- A half-open character span `[start, end)`, as in the Python tuples. -/
abbrev Span := Nat × Nat

/-- Python pySlice `text[i:j]` for `0 ≤ i, j` (clamped like Python). -/
def pySlice (text : List Char) (i j : Nat) : List Char :=
  (text.drop i).take (j - i)

/-- `find_spans(text, pattern)` from `app.py`: all (possibly overlapping)
occurrences of `pattern` in `text`; an empty pattern matches nothing.
The Python loop `for i in range(len(text) - len(pattern) + 1)` is the range
`List.range (text.length + 1 - pattern.length)` (for nonempty `pattern` the
two bounds agree, including the clamping to an empty range when the pattern
is longer than the text). -/
def find_spans (text pattern : List Char) : List Span :=
  if pattern = [] then []
  else
    (List.range (text.length + 1 - pattern.length)).filterMap fun i =>
      if pySlice text i (i + pattern.length) = pattern then
        some (i, i + pattern.length)
      else none

/-- The order Python's `sorted` uses on span tuples: lexicographic. -/
def spanLE (a b : Span) : Prop :=
  a.1 < b.1 ∨ (a.1 = b.1 ∧ a.2 ≤ b.2)

instance : DecidableRel spanLE := fun a b => by
  unfold spanLE; exact inferInstance

instance : IsTotal Span spanLE := by
  constructor
  intro a b
  rcases Nat.lt_trichotomy a.1 b.1 with h | h | h
  · exact Or.inl (Or.inl h)
  · rcases Nat.le_total a.2 b.2 with h2 | h2
    · exact Or.inl (Or.inr ⟨h, h2⟩)
    · exact Or.inr (Or.inr ⟨h.symm, h2⟩)
  · exact Or.inr (Or.inl h)

instance : IsTrans Span spanLE := by
  constructor
  intro a b c hab hbc
  rcases hab with h | ⟨h, h2⟩
  · rcases hbc with h' | ⟨h', _⟩
    · exact Or.inl (h.trans h')
    · exact Or.inl (h' ▸ h)
  · rcases hbc with h' | ⟨h', h2'⟩
    · exact Or.inl (h ▸ h')
    · exact Or.inr ⟨h.trans h', h2.trans h2'⟩

/-- Python `sorted(spans)`. -/
def sortSpans (spans : List Span) : List Span :=
  List.insertionSort spanLE spans

/-- The span-merging loop inside `ansi_highlight` (`app.py` lines 46-53):
carry a current merged span, extend it while the next span starts at or
before its end, emit it when a gap appears. -/
def mergeLoop : Span → List Span → List Span
  | cur, [] => [cur]
  | cur, (s, e) :: rest =>
    if s ≤ cur.2 then mergeLoop (cur.1, max cur.2 e) rest
    else cur :: mergeLoop (s, e) rest

/-- The full merge step of `ansi_highlight`: sort, then run the loop starting
from the first span.  (`ansi_highlight` only reaches this code with a
nonempty span list; on `[]` we return `[]`.) -/
def mergeSpans (spans : List Span) : List Span :=
  match sortSpans spans with
  | [] => []
  | first :: rest => mergeLoop first rest

/-- The highlight-start marker inserted by `ansi_highlight`
("\x1b[43m\x1b[30m": yellow background, black text). -/
def hlOn : List Char := '\x1b' :: '[' :: '4' :: '3' :: 'm' :: '\x1b' :: '[' :: '3' :: '0' :: 'm' :: []

/-- The highlight-end marker ("\x1b[0m": reset). -/
def hlOff : List Char := '\x1b' :: '[' :: '0' :: 'm' :: []

/-- The string-rebuilding loop of `ansi_highlight` (`app.py` lines 56-65),
generalised over the two marker strings it inserts: for each merged span emit
the unmatched part since the previous span, the start marker, the covered
part and the end marker; finally emit the trailing text. -/
def buildOut (mOn mOff : List Char) (text : List Char) : List Span → Nat → List Char
  | [], i => pySlice text i text.length
  | (s, e) :: rest, i =>
    pySlice text i s ++ mOn ++ pySlice text s e ++ mOff ++ buildOut mOn mOff text rest e

/-- `ansi_highlight(text, spans)` with the two inserted marker strings as
parameters; `ansi_highlight` itself is the instantiation at the ANSI codes. -/
def ansiHighlightWith (mOn mOff : List Char) (text : List Char) (spans : List Span) : List Char :=
  if spans = [] then text
  else buildOut mOn mOff text (mergeSpans spans) 0

/-- `ansi_highlight(text, spans)` from `app.py`. -/
def ansi_highlight (text : List Char) (spans : List Span) : List Char :=
  ansiHighlightWith hlOn hlOff text spans

/-- `LineMatch` from `models.py`. -/
structure LineMatch where
  line_no : Nat
  text : List Char
  spans : List Span
deriving DecidableEq, Repr

/-- `SearchResult` from `models.py`. -/
structure SearchResult where
  title : List Char
  title_spans : List Span
  line_matches : List LineMatch
  matches' : Nat
deriving DecidableEq, Repr

/-- A sonnet: a title and its lines (the engine reads only these two keys). -/
structure Sonnet where
  title : List Char
  lines : List (List Char)
deriving DecidableEq, Repr

/-- Python's lowercase mapping for a single character, as `str.lower()`
applies it.  Unicode's case-mapping tables contain exactly one
lowercase mapping that changes length: U+0130 ("İ", Latin capital letter I
with dot above) maps to the two characters "i" followed by U+0307 (combining
dot above); `str.lower()` applies it, so lower-casing is *not*
length-preserving in Python.  Every other lowercase mapping (including the
context-sensitive final-sigma rule) sends one character to one character;
which character a one-to-one mapping produces does not matter to any
property proved here, so those are modelled by `Char.toLower`. -/
def pyLowerChar (c : Char) : List Char :=
  if c = '\u0130' then ['i', '\u0307'] else [c.toLower]

/-- Python's `str.lower()`: the concatenation of the per-character lowercase
mappings (a flat map, since U+0130 lowers to two characters). -/
def lowerStr : List Char → List Char
  | [] => []
  | c :: rest => pyLowerChar c ++ lowerStr rest

/-- The per-line loop of `search_sonnet` (`app.py` lines 74-79):
`for idx, line_raw in enumerate(lines_raw, start=1)`, keeping a `LineMatch`
(with the original-case line text) only when the line has at least one span. -/
def searchLines (q : List Char) : List (List Char) → Nat → List LineMatch
  | [], _ => []
  | line :: rest, idx =>
    let spans := find_spans (lowerStr line) q
    if spans = [] then searchLines q rest (idx + 1)
    else ⟨idx, line, spans⟩ :: searchLines q rest (idx + 1)

/-- `search_sonnet(sonnet, query)` from `app.py`. -/
def search_sonnet (sonnet : Sonnet) (query : List Char) : SearchResult :=
  let q := lowerStr query
  let title_spans := find_spans (lowerStr sonnet.title) q
  let line_matches := searchLines q sonnet.lines 1
  { title := sonnet.title
    title_spans := title_spans
    line_matches := line_matches
    matches' := title_spans.length + (line_matches.map (fun lm => lm.spans.length)).sum }

/-- One insertion into the Python dict `lines_by_no` during its comprehension:
a repeated key overwrites the stored value but keeps the original position
(Python dict semantics). -/
def dictInsert (d : List LineMatch) (lm : LineMatch) : List LineMatch :=
  if d.any (fun x => x.line_no = lm.line_no) then
    d.map (fun x => if x.line_no = lm.line_no then lm else x)
  else d ++ [lm]

/-- `lines_by_no = {lm.line_no: lm for lm in combined.line_matches}`. -/
def buildDict (lms : List LineMatch) : List LineMatch :=
  lms.foldl dictInsert []

/-- The loop over `result2.line_matches` in `combine_results`: extend the
spans of an existing entry with the same line number, otherwise append a copy
of the line match. -/
def extendOrAdd (d : List LineMatch) (lm : LineMatch) : List LineMatch :=
  if d.any (fun x => x.line_no = lm.line_no) then
    d.map (fun x => if x.line_no = lm.line_no then
      { x with spans := x.spans ++ lm.spans } else x)
  else d ++ [lm]

/-- Python `sorted(lines_by_no.values(), key=lambda lm: lm.line_no)`. -/
def sortLineMatches (lms : List LineMatch) : List LineMatch :=
  List.insertionSort (fun a b => a.line_no ≤ b.line_no) lms

instance : IsTotal LineMatch (fun a b => a.line_no ≤ b.line_no) :=
  ⟨fun a b => Nat.le_total a.line_no b.line_no⟩

instance : IsTrans LineMatch (fun a b => a.line_no ≤ b.line_no) :=
  ⟨fun _ _ _ h h' => Nat.le_trans h h'⟩

/-- `combine_results(result1, result2)` from `app.py`: the match counts add, title
spans concatenate and re-sort, line matches merge by line number and re-sort.
(The Python function starts from a shallow copy of `result1`, so `title` is
`result1.title`.) -/
def combine_results (result1 result2 : SearchResult) : SearchResult :=
  { title := result1.title
    title_spans := sortSpans (result1.title_spans ++ result2.title_spans)
    line_matches :=
      sortLineMatches (result2.line_matches.foldl extendOrAdd (buildDict result1.line_matches))
    matches' := result1.matches' + result2.matches' }

/-- The two search modes of `Configuration.search_mode`. -/
inductive Mode
  | AND
  | OR
deriving DecidableEq, Repr

/-- The AND branch of the accumulation loop in `main` (`app.py` lines
336-342): combine when both sides have matches, otherwise force the
accumulator's count to zero, leaving its span and line data untouched. -/
def andStep (acc res : SearchResult) : SearchResult :=
  if acc.matches' > 0 ∧ res.matches' > 0 then combine_results acc res
  else { acc with matches' := 0 }

/-- The OR branch of the accumulation loop in `main` (`app.py` lines
343-344): combine unconditionally. -/
def orStep (acc res : SearchResult) : SearchResult :=
  combine_results acc res

/-- One pass of the per-sonnet accumulation loop in `main`
(`for i in range(len(combined_results))`). -/
def accumStep (mode : Mode) (accs results : List SearchResult) : List SearchResult :=
  match mode with
  | Mode.AND => List.zipWith andStep accs results
  | Mode.OR => List.zipWith orStep accs results

/-- The query-evaluation loop of `main` (`app.py` lines 316-344): the first
word's per-sonnet results seed the accumulator, each later word's results are
folded in with `accumStep`. -/
def evaluateQuery (mode : Mode) (sonnets : List Sonnet) (words : List (List Char)) :
    List SearchResult :=
  match words with
  | [] => []
  | w :: ws =>
    ws.foldl (fun accs word => accumStep mode accs (sonnets.map (fun s => search_sonnet s word)))
      (sonnets.map (fun s => search_sonnet s w))

/-- The span count a `SearchResult` is supposed to equal:
`len(title_spans) + sum(len(lm.spans) for lm in line_matches)`. -/
def spanCount (r : SearchResult) : Nat :=
  r.title_spans.length + (r.line_matches.map (fun lm => lm.spans.length)).sum

/-- The `matches'` bookkeeping invariant of the spec's data model. -/
def matchesInv (r : SearchResult) : Prop :=
  r.matches' = spanCount r

/-- Line numbers of a result's line matches are pairwise distinct (the
"keyed by unique line_no" clause of the data model). -/
def uniqueLineNos (r : SearchResult) : Prop :=
  (r.line_matches.map LineMatch.line_no).Nodup

/-- A position `x` is covered by some span of `l`. -/
def covered (l : List Span) (x : Nat) : Prop :=
  ∃ sp ∈ l, sp.1 ≤ x ∧ x < sp.2

/-- The multiset of spans a list of line matches holds at line number `ln`
(summing over every entry with that line number). -/
def lineSpansAt (lms : List LineMatch) (ln : Nat) : Multiset Span :=
  (lms.map (fun lm => if lm.line_no = ln then (lm.spans : Multiset Span) else 0)).sum

/-! ### Basic lemmas about `find_spans` -/

theorem mem_find_spans {text pattern : List Char} {i j : Nat} :
    (i, j) ∈ find_spans text pattern ↔
      pattern ≠ [] ∧ j = i + pattern.length ∧ i + pattern.length ≤ text.length ∧
        pySlice text i (i + pattern.length) = pattern := by
  unfold find_spans
  by_cases hp : pattern = []
  · simp [hp]
  · simp only [hp, if_neg, List.mem_filterMap, List.mem_range, ne_eq, not_false_eq_true,
      true_and]
    constructor
    · rintro ⟨a, ha, hf⟩
      split_ifs at hf with hs
      · cases hf
        refine ⟨rfl, ?_, hs⟩
        have := Nat.lt_sub_iff_add_lt.mp ha
        omega
    · rintro ⟨hj, hle, hs⟩
      refine ⟨i, ?_, ?_⟩
      · have hp' : 0 < pattern.length := List.length_pos.mpr hp
        omega
      · rw [if_pos hs, hj]

theorem find_spans_valid {text pattern : List Char} {sp : Span}
    (h : sp ∈ find_spans text pattern) : sp.1 < sp.2 ∧ sp.2 ≤ text.length := by
  obtain ⟨i, j⟩ := sp
  rw [mem_find_spans] at h
  obtain ⟨hp, hj, hle, -⟩ := h
  have hp' : 0 < pattern.length := List.length_pos.mpr hp
  omega

/-! ### Lemmas about `searchLines` and `search_sonnet` -/

theorem searchLines_mem {q : List Char} :
    ∀ {lines : List (List Char)} {idx : Nat} {lm : LineMatch},
      lm ∈ searchLines q lines idx →
        idx ≤ lm.line_no ∧ lm.line_no < idx + lines.length ∧
        lm.spans = find_spans (lowerStr lm.text) q ∧ lm.spans ≠ [] := by
  intro lines
  induction lines with
  | nil => intro idx lm h; simp [searchLines] at h
  | cons line rest ih =>
    intro idx lm h
    rw [searchLines] at h
    split_ifs at h with hs
    · obtain ⟨h1, h2, h3⟩ := ih h
      exact ⟨by omega, by simp only [List.length_cons]; omega, h3⟩
    · rcases List.mem_cons.mp h with h | h
      · subst h
        exact ⟨Nat.le_refl _, by simp only [List.length_cons]; omega, rfl, hs⟩
      · obtain ⟨h1, h2, h3⟩ := ih h
        exact ⟨by omega, by simp only [List.length_cons]; omega, h3⟩

theorem searchLines_pairwise {q : List Char} :
    ∀ (lines : List (List Char)) (idx : Nat),
      (searchLines q lines idx).Pairwise (fun a b => a.line_no < b.line_no) := by
  intro lines
  induction lines with
  | nil => intro idx; simp [searchLines]
  | cons line rest ih =>
    intro idx
    rw [searchLines]
    split_ifs with hs
    · exact ih (idx + 1)
    · refine List.Pairwise.cons ?_ (ih (idx + 1))
      intro b hb
      have := (searchLines_mem hb).1
      show idx < b.line_no
      omega

theorem search_sonnet_line_mem {s : Sonnet} {q : List Char} {lm : LineMatch}
    (h : lm ∈ (search_sonnet s q).line_matches) :
    1 ≤ lm.line_no ∧ lm.line_no ≤ s.lines.length ∧
    lm.spans = find_spans (lowerStr lm.text) (lowerStr q) ∧ lm.spans ≠ [] := by
  have := searchLines_mem h
  exact ⟨this.1, by omega, this.2.2⟩


/-- C5: `find_spans(text, pattern)` returns the empty sequence when `pattern`
is empty; otherwise it returns exactly the spans `(i, i + len(pattern))` for
every start index `i` with `i + len(pattern) ≤ len(text)` where the substring
of `text` at `i` equals `pattern`, reporting all overlapping occurrences
independently; in particular `find_spans("aaa","aa") = [(0,2),(1,3)]` and
`find_spans("abc","") = []`. -/
theorem claim_C5 :
    (∀ text : List Char, find_spans text [] = []) ∧
    (∀ (text pattern : List Char) (i j : Nat),
      (i, j) ∈ find_spans text pattern ↔
        pattern ≠ [] ∧ j = i + pattern.length ∧ i + pattern.length ≤ text.length ∧
          pySlice text i (i + pattern.length) = pattern) ∧
    find_spans ['a', 'a', 'a'] ['a', 'a'] = [(0, 2), (1, 3)] ∧
    find_spans ['a', 'b', 'c'] [] = [] := by
  refine ⟨fun text => by simp [find_spans], fun text pattern i j => mem_find_spans,
    by decide, by decide⟩

/-- C9: `search_sonnet` never produces a `LineMatch` whose span list is
empty: a line with zero matching spans is omitted from the result entirely. -/
theorem claim_C9 :
    ∀ (sonnet : Sonnet) (query : List Char),
      ∀ lm ∈ (search_sonnet sonnet query).line_matches, lm.spans ≠ [] :=
  fun _ _ _ h => (search_sonnet_line_mem h).2.2.2

/-- Witness for C9 at a concrete sonnet and query. -/
theorem claim_C9_witness :
    (⟨1, ['c', 'a', 't'], [(1, 3)]⟩ : LineMatch).spans ≠ [] :=
  claim_C9 ⟨['t'], [['c', 'a', 't']]⟩ ['a', 't'] ⟨1, ['c', 'a', 't'], [(1, 3)]⟩ (by decide)

/-- C10: the line matches produced by `search_sonnet` are in strictly
increasing order of `line_no`, and every `line_no` is between 1 and the
number of lines of the document inclusive. -/
theorem claim_C10 :
    ∀ (sonnet : Sonnet) (query : List Char),
      (search_sonnet sonnet query).line_matches.Pairwise
        (fun a b => a.line_no < b.line_no) ∧
      ∀ lm ∈ (search_sonnet sonnet query).line_matches,
        1 ≤ lm.line_no ∧ lm.line_no ≤ sonnet.lines.length :=
  fun s q =>
    ⟨searchLines_pairwise (q := lowerStr q) s.lines 1,
     fun _ h => ⟨(search_sonnet_line_mem h).1, (search_sonnet_line_mem h).2.1⟩⟩

/-- Witness for C10 at a concrete sonnet and query. -/
theorem claim_C10_witness :
    1 ≤ (⟨1, ['c', 'a', 't'], [(1, 3)]⟩ : LineMatch).line_no ∧
    (⟨1, ['c', 'a', 't'], [(1, 3)]⟩ : LineMatch).line_no ≤
      (⟨['t'], [['c', 'a', 't']]⟩ : Sonnet).lines.length :=
  (claim_C10 ⟨['t'], [['c', 'a', 't']]⟩ ['a', 't']).2
    ⟨1, ['c', 'a', 't'], [(1, 3)]⟩ (by decide)

/-- C8 as stated is false of the code: `search_sonnet` computes spans
against the lower-cased title/line but stores them next to the
*original-case* string, and Python's `str.lower()` can change length.  For
the document titled "İa" (length 2) and the query "a", the lowered title is
"i" + U+0307 + "a" (length 3), so the stored title span is `(2, 3)` with
`end = 3 > len(title) = 2` — not a valid index interval of the stored
original-case title. -/
theorem claim_C8_counterexample :
    (search_sonnet ⟨['\u0130', 'a'], []⟩ ['a']).title_spans = [(2, 3)] ∧
    ¬ ∀ sp ∈ (search_sonnet ⟨['\u0130', 'a'], []⟩ ['a']).title_spans,
        sp.1 < sp.2 ∧ sp.2 ≤ (search_sonnet ⟨['\u0130', 'a'], []⟩ ['a']).title.length := by
  constructor
  · decide
  · decide

/-- C8 (amended): every span returned by `find_spans(text, pattern)`
satisfies `0 ≤ start < end ≤ len(text)` (a nonempty pattern being the only
way any span is returned at all); every span stored in a `SearchResult` by
`search_sonnet` is a valid index interval of the *lower-cased* version of
the stored string — the string the span was actually computed against — and
hence of the stored original-case string (`title_spans` against the title,
`LineMatch` spans against the stored line text) exactly when lower-casing
preserves that string's length, as it does for any text free of U+0130;
Python's `str.lower()` is not length-preserving in general, so validity for
the original-case string does not hold unconditionally
(`claim_C8_counterexample`). -/
theorem claim_C8 :
    (∀ (text pattern : List Char), ∀ sp ∈ find_spans text pattern,
      0 ≤ sp.1 ∧ sp.1 < sp.2 ∧ sp.2 ≤ text.length) ∧
    (∀ (sonnet : Sonnet) (query : List Char),
      (∀ sp ∈ (search_sonnet sonnet query).title_spans,
        0 ≤ sp.1 ∧ sp.1 < sp.2 ∧ sp.2 ≤ (lowerStr sonnet.title).length) ∧
      (∀ lm ∈ (search_sonnet sonnet query).line_matches, ∀ sp ∈ lm.spans,
        0 ≤ sp.1 ∧ sp.1 < sp.2 ∧ sp.2 ≤ (lowerStr lm.text).length)) ∧
    (∀ (sonnet : Sonnet) (query : List Char),
      ((lowerStr sonnet.title).length = sonnet.title.length →
        ∀ sp ∈ (search_sonnet sonnet query).title_spans,
          0 ≤ sp.1 ∧ sp.1 < sp.2 ∧ sp.2 ≤ (search_sonnet sonnet query).title.length) ∧
      (∀ lm ∈ (search_sonnet sonnet query).line_matches,
        (lowerStr lm.text).length = lm.text.length →
        ∀ sp ∈ lm.spans, 0 ≤ sp.1 ∧ sp.1 < sp.2 ∧ sp.2 ≤ lm.text.length)) := by
  refine ⟨?_, ?_, ?_⟩
  · intro text pattern sp h
    have := find_spans_valid h
    exact ⟨Nat.zero_le _, this.1, this.2⟩
  · intro sonnet query
    constructor
    · intro sp h
      have hmem : sp ∈ find_spans (lowerStr sonnet.title) (lowerStr query) := h
      have := find_spans_valid hmem
      exact ⟨Nat.zero_le _, this.1, this.2⟩
    · intro lm hlm sp hsp
      have hspans := (search_sonnet_line_mem hlm).2.2.1
      rw [hspans] at hsp
      have := find_spans_valid hsp
      exact ⟨Nat.zero_le _, this.1, this.2⟩
  · intro sonnet query
    constructor
    · intro hlen sp h
      have hmem : sp ∈ find_spans (lowerStr sonnet.title) (lowerStr query) := h
      have := find_spans_valid hmem
      refine ⟨Nat.zero_le _, this.1, ?_⟩
      rw [show (search_sonnet sonnet query).title = sonnet.title from rfl]
      omega
    · intro lm hlm hlen sp hsp
      have hspans := (search_sonnet_line_mem hlm).2.2.1
      rw [hspans] at hsp
      have := find_spans_valid hsp
      exact ⟨Nat.zero_le _, this.1, by omega⟩

/-- Witness for C8 (amended) at concrete inputs: a span from `find_spans`
directly, and a stored title span of an ASCII document whose lower-casing
preserves length. -/
theorem claim_C8_witness :
    (0 ≤ (0, 2).1 ∧ (0, 2).1 < (0, 2).2 ∧ (0, 2).2 ≤ (['a', 'a', 'a'] : List Char).length) ∧
    (0 ≤ (0, 1).1 ∧ (0, 1).1 < (0, 1).2 ∧
      (0, 1).2 ≤ (search_sonnet ⟨['l', 'o', 'v', 'e'], []⟩ ['l']).title.length) :=
  ⟨claim_C8.1 ['a', 'a', 'a'] ['a', 'a'] (0, 2) (by decide),
   (claim_C8.2.2 ⟨['l', 'o', 'v', 'e'], []⟩ ['l']).1 (by decide) (0, 1) (by decide)⟩

/-- C3: `combine_results(a, b).matches == a.matches + b.matches`,
unconditionally and independently of the search mode (the mode-dependent
zeroing happens one layer up, in the query loop, not here). -/
theorem claim_C3 :
    ∀ a b : SearchResult, (combine_results a b).matches' = a.matches' + b.matches' :=
  fun _ _ => rfl

theorem andStep_of_zero {acc : SearchResult} (h : acc.matches' = 0)
    (res : SearchResult) : andStep acc res = acc := by
  unfold andStep
  rw [if_neg (by simp [h])]
  cases acc
  simp_all

theorem foldl_andStep_of_zero {acc : SearchResult} (h : acc.matches' = 0) :
    ∀ results : List SearchResult, results.foldl andStep acc = acc := by
  intro results
  induction results with
  | nil => rfl
  | cons res rest ih => rw [List.foldl_cons, andStep_of_zero h res]; exact ih

/-- C2: under AND mode, once a document's accumulator has `matches == 0`
(as after a gate-zeroing step), every subsequent term of the fold leaves it
with `matches == 0` — a later term that would match cannot revive it — and
its span and line data are left untouched; moreover the gate step itself
only zeroes the count, touching nothing else. -/
theorem claim_C2 (acc : SearchResult) (results : List SearchResult)
    (h : acc.matches' = 0) :
    (results.foldl andStep acc).matches' = 0 ∧
    (results.foldl andStep acc).title_spans = acc.title_spans ∧
    (results.foldl andStep acc).line_matches = acc.line_matches ∧
    (∀ res : SearchResult, ¬(acc.matches' > 0 ∧ res.matches' > 0) →
      andStep acc res = { acc with matches' := 0 }) := by
  rw [foldl_andStep_of_zero h results]
  exact ⟨h, rfl, rfl, fun res hres => by unfold andStep; rw [if_neg hres]⟩

/-- Witness for C2: a gated accumulator with stale span data stays zeroed
through a fold over a later result that itself has matches. -/
theorem claim_C2_witness :
    (([(⟨['t'], [(0, 1)], [], 1⟩ : SearchResult)]).foldl andStep
        ⟨['t'], [(0, 1)], [], 0⟩).matches' = 0 ∧
    (([(⟨['t'], [(0, 1)], [], 1⟩ : SearchResult)]).foldl andStep
        ⟨['t'], [(0, 1)], [], 0⟩).title_spans = (⟨['t'], [(0, 1)], [], 0⟩ : SearchResult).title_spans ∧
    (([(⟨['t'], [(0, 1)], [], 1⟩ : SearchResult)]).foldl andStep
        ⟨['t'], [(0, 1)], [], 0⟩).line_matches = (⟨['t'], [(0, 1)], [], 0⟩ : SearchResult).line_matches ∧
    (∀ res : SearchResult,
      ¬((⟨['t'], [(0, 1)], [], 0⟩ : SearchResult).matches' > 0 ∧ res.matches' > 0) →
      andStep ⟨['t'], [(0, 1)], [], 0⟩ res =
        { (⟨['t'], [(0, 1)], [], 0⟩ : SearchResult) with matches' := 0 }) :=
  claim_C2 ⟨['t'], [(0, 1)], [], 0⟩ [⟨['t'], [(0, 1)], [], 1⟩] rfl

/-! ### Lemmas about the span merge in `ansi_highlight` -/

theorem mergeLoop_head :
    ∀ (l : List Span) (cur : Span), ∃ e t, mergeLoop cur l = (cur.1, e) :: t ∧ cur.2 ≤ e := by
  intro l
  induction l with
  | nil => intro cur; exact ⟨cur.2, [], rfl, Nat.le_refl _⟩
  | cons sp rest ih =>
    intro cur
    obtain ⟨s, e⟩ := sp
    rw [mergeLoop]
    split_ifs with hle
    · obtain ⟨e', t', heq, hle'⟩ := ih (cur.1, max cur.2 e)
      exact ⟨e', t', heq, Nat.le_trans (Nat.le_max_left _ _) hle'⟩
    · exact ⟨cur.2, _, rfl, Nat.le_refl _⟩

theorem mergeLoop_chain :
    ∀ (l : List Span) (cur : Span), List.Chain' (fun a b => a.2 < b.1) (mergeLoop cur l) := by
  intro l
  induction l with
  | nil => intro cur; simp [mergeLoop]
  | cons sp rest ih =>
    intro cur
    obtain ⟨s, e⟩ := sp
    rw [mergeLoop]
    split_ifs with hle
    · exact ih (cur.1, max cur.2 e)
    · obtain ⟨e', t', heq, -⟩ := mergeLoop_head rest (s, e)
      rw [heq]
      exact List.Chain'.cons (by omega) (heq ▸ ih (s, e))

theorem mergeLoop_valid :
    ∀ (l : List Span) (cur : Span), cur.1 < cur.2 → (∀ sp ∈ l, sp.1 < sp.2) →
      ∀ sp ∈ mergeLoop cur l, sp.1 < sp.2 := by
  intro l
  induction l with
  | nil => intro cur hc _ sp hsp; rw [mergeLoop] at hsp; simp at hsp; subst hsp; exact hc
  | cons hd rest ih =>
    intro cur hc hall sp hsp
    obtain ⟨s, e⟩ := hd
    rw [mergeLoop] at hsp
    split_ifs at hsp with hle
    · refine ih (cur.1, max cur.2 e) (by simp; omega) (fun x hx => hall x (List.mem_cons_of_mem _ hx)) sp hsp
    · rcases List.mem_cons.mp hsp with h | h
      · subst h; exact hc
      · exact ih (s, e) (hall (s, e) (List.mem_cons_self _ _)) (fun x hx => hall x (List.mem_cons_of_mem _ hx)) sp h

theorem mergeLoop_bound (B : Nat) :
    ∀ (l : List Span) (cur : Span), cur.2 ≤ B → (∀ sp ∈ l, sp.2 ≤ B) →
      ∀ sp ∈ mergeLoop cur l, sp.2 ≤ B := by
  intro l
  induction l with
  | nil => intro cur hc _ sp hsp; rw [mergeLoop] at hsp; simp at hsp; subst hsp; exact hc
  | cons hd rest ih =>
    intro cur hc hall sp hsp
    obtain ⟨s, e⟩ := hd
    rw [mergeLoop] at hsp
    split_ifs at hsp with hle
    · refine ih (cur.1, max cur.2 e) ?_ (fun x hx => hall x (List.mem_cons_of_mem _ hx)) sp hsp
      have := hall (s, e) (List.mem_cons_self _ _)
      simp at this ⊢
      omega
    · rcases List.mem_cons.mp hsp with h | h
      · subst h; exact hc
      · exact ih (s, e) (hall (s, e) (List.mem_cons_self _ _)) (fun x hx => hall x (List.mem_cons_of_mem _ hx)) sp h

theorem covered_cons {a : Span} {l : List Span} {x : Nat} :
    covered (a :: l) x ↔ (a.1 ≤ x ∧ x < a.2) ∨ covered l x := by
  simp [covered]

theorem covered_cons_mk {a b : Nat} {l : List Span} {x : Nat} :
    covered ((a, b) :: l) x ↔ (a ≤ x ∧ x < b) ∨ covered l x :=
  covered_cons

theorem covered_perm {l l' : List Span} (h : l.Perm l') (x : Nat) :
    covered l x ↔ covered l' x :=
  ⟨fun ⟨sp, hm, hx⟩ => ⟨sp, h.mem_iff.mp hm, hx⟩,
   fun ⟨sp, hm, hx⟩ => ⟨sp, h.mem_iff.mpr hm, hx⟩⟩

theorem mergeLoop_covered :
    ∀ (l : List Span) (cur : Span),
      (∀ sp ∈ l, cur.1 ≤ sp.1) → l.Pairwise (fun a b => a.1 ≤ b.1) →
      ∀ x : Nat, covered (mergeLoop cur l) x ↔ covered (cur :: l) x := by
  intro l
  induction l with
  | nil => intro cur _ _ x; rfl
  | cons hd rest ih =>
    intro cur hlo hpw x
    obtain ⟨s, e⟩ := hd
    have hcs : cur.1 ≤ s := hlo (s, e) (List.mem_cons_self _ _)
    obtain ⟨hhd, hpw'⟩ := List.pairwise_cons.mp hpw
    rw [mergeLoop]
    split_ifs with hle
    · have hrest : ∀ sp ∈ rest, (cur.1, max cur.2 e).1 ≤ sp.1 := by
        intro sp hsp
        exact Nat.le_trans hcs (hhd sp hsp)
      rw [ih (cur.1, max cur.2 e) hrest hpw' x]
      rw [covered_cons_mk, covered_cons, covered_cons_mk]
      constructor
      · rintro (⟨h1, h2⟩ | h)
        · by_cases hx : x < cur.2
          · exact Or.inl ⟨h1, hx⟩
          · exact Or.inr (Or.inl ⟨by omega, by omega⟩)
        · exact Or.inr (Or.inr h)
      · rintro (⟨h1, h2⟩ | (⟨h1, h2⟩ | h))
        · exact Or.inl ⟨h1, by omega⟩
        · exact Or.inl ⟨by omega, by omega⟩
        · exact Or.inr h
    · have hrest : ∀ sp ∈ rest, ((s, e) : Span).1 ≤ sp.1 := fun sp hsp => hhd sp hsp
      rw [covered_cons, ih (s, e) hrest hpw' x]
      exact covered_cons.symm

theorem sortSpans_perm (spans : List Span) : (sortSpans spans).Perm spans :=
  List.perm_insertionSort spanLE spans

theorem sortSpans_pairwise_fst (spans : List Span) :
    (sortSpans spans).Pairwise (fun a b => a.1 ≤ b.1) := by
  refine (List.sorted_insertionSort spanLE spans).imp ?_
  intro a b h
  rcases h with h | ⟨h, -⟩
  · omega
  · omega

theorem mergeSpans_chain (spans : List Span) :
    List.Chain' (fun a b => a.2 < b.1) (mergeSpans spans) := by
  unfold mergeSpans
  split
  · simp
  · exact mergeLoop_chain _ _

theorem mergeSpans_valid {spans : List Span} (h : ∀ sp ∈ spans, sp.1 < sp.2) :
    ∀ sp ∈ mergeSpans spans, sp.1 < sp.2 := by
  unfold mergeSpans
  split
  · intro sp hsp; simp at hsp
  · next first rest heq =>
    have hall : ∀ sp ∈ first :: rest, sp.1 < sp.2 := by
      intro sp hsp
      exact h sp ((sortSpans_perm spans).mem_iff.mp (heq ▸ hsp))
    exact mergeLoop_valid rest first (hall first (List.mem_cons_self _ _))
      (fun sp hsp => hall sp (List.mem_cons_of_mem _ hsp))

theorem mergeSpans_bound {spans : List Span} {B : Nat} (h : ∀ sp ∈ spans, sp.2 ≤ B) :
    ∀ sp ∈ mergeSpans spans, sp.2 ≤ B := by
  unfold mergeSpans
  split
  · intro sp hsp; simp at hsp
  · next first rest heq =>
    have hall : ∀ sp ∈ first :: rest, sp.2 ≤ B := by
      intro sp hsp
      exact h sp ((sortSpans_perm spans).mem_iff.mp (heq ▸ hsp))
    exact mergeLoop_bound B rest first (hall first (List.mem_cons_self _ _))
      (fun sp hsp => hall sp (List.mem_cons_of_mem _ hsp))

theorem mergeSpans_covered (spans : List Span) (x : Nat) :
    covered (mergeSpans spans) x ↔ covered spans x := by
  unfold mergeSpans
  split
  · next heq =>
    have : spans = [] := ((sortSpans_perm spans).symm.trans (heq ▸ List.Perm.refl _)).eq_nil
    rw [this]
  · next first rest heq =>
    have hpw := sortSpans_pairwise_fst spans
    rw [heq] at hpw
    obtain ⟨hhd, hpw'⟩ := List.pairwise_cons.mp hpw
    rw [mergeLoop_covered rest first hhd hpw' x]
    rw [show first :: rest = sortSpans spans from heq.symm]
    exact covered_perm (sortSpans_perm spans) x

/-- C6: the span merge before rendering merges two spans exactly when the
next span's start is `<=` the current merged span's end (touching spans
merge, a gap does not — witnessed by the concrete example), and for valid
input spans its output is a minimal, non-overlapping, ascending sequence of
spans covering exactly the same character positions as the input: every
output span is nonempty, consecutive output spans are separated by a strict
gap (`a.end < b.start`, the canonical minimal form — no two output spans
could be merged further), and a position is covered by the output iff it is
covered by the input.  `merge([(0,2),(2,4),(5,6)]) = [(0,4),(5,6)]` and
empty input gives empty output. -/
theorem claim_C6 :
    mergeSpans [] = [] ∧
    mergeSpans [(0, 2), (2, 4), (5, 6)] = [(0, 4), (5, 6)] ∧
    ∀ spans : List Span, (∀ sp ∈ spans, sp.1 < sp.2) →
      ((∀ sp ∈ mergeSpans spans, sp.1 < sp.2) ∧
       List.Chain' (fun a b => a.2 < b.1) (mergeSpans spans) ∧
       (∀ x : Nat, covered (mergeSpans spans) x ↔ covered spans x)) :=
  ⟨by decide, by decide,
   fun spans h => ⟨mergeSpans_valid h, mergeSpans_chain spans, mergeSpans_covered spans⟩⟩

/-- Witness for C6 at the spec's concrete example. -/
theorem claim_C6_witness :
    (((0 : Nat), (4 : Nat)).1 < ((0 : Nat), (4 : Nat)).2) ∧
    (covered (mergeSpans [(0, 2), (2, 4), (5, 6)]) 3 ↔ covered [(0, 2), (2, 4), (5, 6)] 3) :=
  ⟨(claim_C6.2.2 [(0, 2), (2, 4), (5, 6)] (by decide)).1 (0, 4) (by decide),
   (claim_C6.2.2 [(0, 2), (2, 4), (5, 6)] (by decide)).2.2 3⟩

/-! ### Round trip of `ansi_highlight` -/

theorem pySlice_append {text : List Char} {i j k : Nat} (h1 : i ≤ j) (h2 : j ≤ k) :
    pySlice text i j ++ pySlice text j k = pySlice text i k := by
  unfold pySlice
  have hd : text.drop j = (text.drop i).drop (j - i) := by
    rw [List.drop_drop]
    congr 1
    omega
  rw [hd, ← List.take_add]
  congr 1
  omega

theorem pySlice_zero_len (text : List Char) : pySlice text 0 text.length = text := by
  simp [pySlice]

theorem chain_gap_pairwise :
    ∀ l : List Span, (∀ sp ∈ l, sp.1 ≤ sp.2) → List.Chain' (fun a b => a.2 < b.1) l →
      l.Pairwise (fun a b => a.2 ≤ b.1) := by
  intro l
  induction l with
  | nil => intro _ _; simp
  | cons a l ih =>
    intro hv hc
    rcases l with - | ⟨b, t⟩
    · simp
    · rw [List.chain'_cons] at hc
      obtain ⟨hab, hc'⟩ := hc
      have hpw' := ih (fun sp hsp => hv sp (List.mem_cons_of_mem _ hsp)) hc'
      refine List.Pairwise.cons ?_ hpw'
      intro c hc
      rcases List.mem_cons.mp hc with h | h
      · subst h; omega
      · have hb2 : b.2 ≤ c.1 := (List.pairwise_cons.mp hpw').1 c h
        have hbv : b.1 ≤ b.2 := hv b (List.mem_cons_of_mem _ (List.mem_cons_self _ _))
        omega

theorem buildOut_empty (text : List Char) :
    ∀ (merged : List Span) (i : Nat), i ≤ text.length →
      (∀ sp ∈ merged, i ≤ sp.1 ∧ sp.1 ≤ sp.2 ∧ sp.2 ≤ text.length) →
      merged.Pairwise (fun a b => a.2 ≤ b.1) →
      buildOut [] [] text merged i = pySlice text i text.length := by
  intro merged
  induction merged with
  | nil => intro i _ _ _; rfl
  | cons sp rest ih =>
    intro i hi hall hpw
    obtain ⟨s, e⟩ := sp
    rw [buildOut]
    obtain ⟨hs1, hs2, hs3⟩ := hall (s, e) (List.mem_cons_self _ _)
    obtain ⟨hhd, hpw'⟩ := List.pairwise_cons.mp hpw
    have hrest : ∀ sp ∈ rest, e ≤ sp.1 ∧ sp.1 ≤ sp.2 ∧ sp.2 ≤ text.length := by
      intro sp hsp
      exact ⟨hhd sp hsp, (hall sp (List.mem_cons_of_mem _ hsp)).2⟩
    rw [ih e hs3 hrest hpw']
    simp only [List.nil_append, List.append_nil, List.append_assoc]
    rw [pySlice_append hs2 hs3, pySlice_append hs1 (Nat.le_trans hs2 hs3)]

/-- C7: deleting all highlight marker insertions from
`ansi_highlight(text, spans)` reproduces `text` exactly, for every span set
(overlapping or not) valid for `text`; and with no spans `ansi_highlight`
returns `text` unchanged.  The deletion of the inserted markers is expressed
by instantiating the generalised builder `ansiHighlightWith` — of which
`ansi_highlight` is the instance at the two ANSI marker strings — with empty
marker strings, which inserts nothing where `ansi_highlight` inserts its
markers and is the identity everywhere else. -/
theorem claim_C7 (text : List Char) (spans : List Span)
    (h : ∀ sp ∈ spans, sp.1 < sp.2 ∧ sp.2 ≤ text.length) :
    ansiHighlightWith [] [] text spans = text ∧ ansi_highlight text [] = text := by
  constructor
  · unfold ansiHighlightWith
    split_ifs with hs
    · rfl
    · have hm : ∀ sp ∈ mergeSpans spans, sp.1 < sp.2 :=
        mergeSpans_valid (fun sp hsp => (h sp hsp).1)
      have hb : ∀ sp ∈ mergeSpans spans, sp.2 ≤ text.length :=
        mergeSpans_bound (fun sp hsp => (h sp hsp).2)
      have hpw := chain_gap_pairwise _ (fun sp hsp => Nat.le_of_lt (hm sp hsp))
        (mergeSpans_chain spans)
      rw [buildOut_empty text (mergeSpans spans) 0 (Nat.zero_le _)
        (fun sp hsp => ⟨Nat.zero_le _, Nat.le_of_lt (hm sp hsp), hb sp hsp⟩) hpw]
      exact pySlice_zero_len text
  · rfl

/-- Witness for C7 at a concrete text with overlapping spans. -/
theorem claim_C7_witness :
    ansiHighlightWith [] [] ['a', 'b', 'c'] [(0, 2), (1, 3)] = ['a', 'b', 'c'] ∧
    ansi_highlight ['a', 'b', 'c'] [] = ['a', 'b', 'c'] :=
  claim_C7 ['a', 'b', 'c'] [(0, 2), (1, 3)] (by decide)

/-! ### Lemmas about the line-match dictionary in `combine_results` -/

theorem anyKey_iff {d : List LineMatch} {n : Nat} :
    (d.any fun x => x.line_no = n) = true ↔ n ∈ d.map LineMatch.line_no := by
  rw [List.any_eq_true]
  constructor
  · rintro ⟨x, hx, hpx⟩
    rw [decide_eq_true_eq] at hpx
    exact hpx ▸ List.mem_map_of_mem _ hx
  · intro hmem
    obtain ⟨x, hx, hfx⟩ := List.mem_map.mp hmem
    exact ⟨x, hx, by rw [decide_eq_true_eq]; exact hfx⟩

theorem keysNodup_extendOrAdd {d : List LineMatch} {lm : LineMatch}
    (h : (d.map LineMatch.line_no).Nodup) :
    ((extendOrAdd d lm).map LineMatch.line_no).Nodup := by
  unfold extendOrAdd
  split_ifs with hany
  · rw [List.map_map]
    have : d.map (LineMatch.line_no ∘ fun x =>
        if x.line_no = lm.line_no then { x with spans := x.spans ++ lm.spans } else x) =
        d.map LineMatch.line_no := by
      refine List.map_congr_left ?_
      intro x _
      by_cases hx : x.line_no = lm.line_no <;> simp [hx]
    rw [this]
    exact h
  · rw [List.map_append]
    have hnot : lm.line_no ∉ d.map LineMatch.line_no := by
      intro hmem
      rw [← anyKey_iff] at hmem
      simp [hmem] at hany
    refine h.append (by simp) ?_
    intro a ha hb
    simp only [List.map_cons, List.map_nil, List.mem_singleton] at hb
    subst hb
    exact hnot ha

theorem map_sum_update {M : Type} [AddCommMonoid M] (f : LineMatch → M) (lm : LineMatch)
    (hf : ∀ x : LineMatch, x.line_no = lm.line_no →
      f { x with spans := x.spans ++ lm.spans } = f x + f lm) :
    ∀ d : List LineMatch, (d.map LineMatch.line_no).Nodup →
      (d.any fun x => x.line_no = lm.line_no) = true →
      (d.map (fun x => f (if x.line_no = lm.line_no then
          { x with spans := x.spans ++ lm.spans } else x))).sum
        = (d.map f).sum + f lm := by
  intro d
  induction d with
  | nil => intro _ hany; simp at hany
  | cons y d' ih =>
    intro hnd hany
    rw [List.map_cons] at hnd
    obtain ⟨hynotin, hnd'⟩ := List.nodup_cons.mp hnd
    by_cases hy : y.line_no = lm.line_no
    · have htail : d'.map (fun x => f (if x.line_no = lm.line_no then
          { x with spans := x.spans ++ lm.spans } else x)) = d'.map f := by
        refine List.map_congr_left ?_
        intro x hx
        have hxne : x.line_no ≠ lm.line_no := by
          intro hxeq
          exact hynotin (by rw [hy, ← hxeq]; exact List.mem_map_of_mem _ hx)
        rw [if_neg hxne]
      rw [List.map_cons, if_pos hy, hf y hy, List.sum_cons, htail, List.map_cons,
        List.sum_cons]
      exact add_right_comm _ _ _
    · have hany' : (d'.any fun x => x.line_no = lm.line_no) = true := by
        rcases List.any_eq_true.mp hany with ⟨x, hx, hpx⟩
        rcases List.mem_cons.mp hx with h | h
        · subst h; simp at hpx; exact absurd hpx hy
        · exact List.any_eq_true.mpr ⟨x, h, hpx⟩
      rw [List.map_cons, if_neg hy, List.sum_cons, ih hnd' hany', List.map_cons,
        List.sum_cons, add_assoc]

theorem map_sum_extendOrAdd {M : Type} [AddCommMonoid M] (f : LineMatch → M) (lm : LineMatch)
    (hf : ∀ x : LineMatch, x.line_no = lm.line_no →
      f { x with spans := x.spans ++ lm.spans } = f x + f lm)
    (d : List LineMatch) (hd : (d.map LineMatch.line_no).Nodup) :
    ((extendOrAdd d lm).map f).sum = (d.map f).sum + f lm := by
  unfold extendOrAdd
  split_ifs with hany
  · rw [List.map_map]
    exact map_sum_update f lm hf d hd hany
  · rw [List.map_append]
    simp

theorem keysNodup_foldl_extendOrAdd :
    ∀ (bs : List LineMatch) (d : List LineMatch), (d.map LineMatch.line_no).Nodup →
      (((bs.foldl extendOrAdd d)).map LineMatch.line_no).Nodup := by
  intro bs
  induction bs with
  | nil => intro d hd; exact hd
  | cons b bs ih =>
    intro d hd
    rw [List.foldl_cons]
    exact ih _ (keysNodup_extendOrAdd hd)

theorem map_sum_foldl_extendOrAdd {M : Type} [AddCommMonoid M] (f : LineMatch → M)
    (hf : ∀ (x lm : LineMatch), x.line_no = lm.line_no →
      f { x with spans := x.spans ++ lm.spans } = f x + f lm) :
    ∀ (bs : List LineMatch) (d : List LineMatch), (d.map LineMatch.line_no).Nodup →
      (((bs.foldl extendOrAdd d)).map f).sum = (d.map f).sum + (bs.map f).sum := by
  intro bs
  induction bs with
  | nil => intro d hd; simp
  | cons b bs ih =>
    intro d hd
    rw [List.foldl_cons, ih _ (keysNodup_extendOrAdd hd),
      map_sum_extendOrAdd f b (fun x hx => hf x b hx) d hd, List.map_cons, List.sum_cons]
    exact add_assoc _ _ _

theorem foldl_dictInsert_of_nodup :
    ∀ (l acc : List LineMatch), (((acc ++ l).map LineMatch.line_no)).Nodup →
      l.foldl dictInsert acc = acc ++ l := by
  intro l
  induction l with
  | nil => intro acc _; simp
  | cons y l' ih =>
    intro acc hnd
    have hnotin : y.line_no ∉ acc.map LineMatch.line_no := by
      rw [List.map_append] at hnd
      have := (List.nodup_append.mp hnd).2.2
      intro hmem
      exact this hmem (by simp)
    have hstep : dictInsert acc y = acc ++ [y] := by
      unfold dictInsert
      rw [if_neg]
      intro hany
      exact hnotin (anyKey_iff.mp hany)
    rw [List.foldl_cons, hstep, ih (acc ++ [y]) (by simpa using hnd)]
    simp

theorem buildDict_eq_self {lms : List LineMatch} (h : (lms.map LineMatch.line_no).Nodup) :
    buildDict lms = lms :=
  foldl_dictInsert_of_nodup lms [] (by simpa using h)

/-! ### Combination homomorphism lemmas -/

theorem sortLineMatches_perm (lms : List LineMatch) : (sortLineMatches lms).Perm lms :=
  List.perm_insertionSort _ lms

theorem combine_line_matches_perm {a b : SearchResult} (ha : uniqueLineNos a) :
    (combine_results a b).line_matches.Perm
      (b.line_matches.foldl extendOrAdd a.line_matches) := by
  show (sortLineMatches (b.line_matches.foldl extendOrAdd (buildDict a.line_matches))).Perm _
  rw [buildDict_eq_self ha]
  exact sortLineMatches_perm _

theorem uniqueLineNos_combine {a b : SearchResult} (ha : uniqueLineNos a) :
    uniqueLineNos (combine_results a b) := by
  unfold uniqueLineNos
  have hperm := (combine_line_matches_perm (b := b) ha).map LineMatch.line_no
  rw [hperm.nodup_iff]
  exact keysNodup_foldl_extendOrAdd b.line_matches a.line_matches ha

theorem combine_map_sum {M : Type} [AddCommMonoid M] (f : LineMatch → M)
    (hf : ∀ (x lm : LineMatch), x.line_no = lm.line_no →
      f { x with spans := x.spans ++ lm.spans } = f x + f lm)
    {a b : SearchResult} (ha : uniqueLineNos a) :
    ((combine_results a b).line_matches.map f).sum =
      (a.line_matches.map f).sum + (b.line_matches.map f).sum := by
  rw [((combine_line_matches_perm (b := b) ha).map f).sum_eq]
  exact map_sum_foldl_extendOrAdd f hf b.line_matches a.line_matches ha

theorem combine_title_multiset (a b : SearchResult) :
    ((combine_results a b).title_spans : Multiset Span) =
      (a.title_spans : Multiset Span) + (b.title_spans : Multiset Span) := by
  show ((sortSpans (a.title_spans ++ b.title_spans) : List Span) : Multiset Span) = _
  rw [Multiset.coe_eq_coe.mpr (sortSpans_perm _)]
  exact (Multiset.coe_add _ _).symm

theorem combine_lineSpansAt {a b : SearchResult} (ha : uniqueLineNos a) (ln : Nat) :
    lineSpansAt (combine_results a b).line_matches ln =
      lineSpansAt a.line_matches ln + lineSpansAt b.line_matches ln := by
  unfold lineSpansAt
  refine combine_map_sum _ ?_ ha
  intro x lm hx
  show (if x.line_no = ln then ((x.spans ++ lm.spans : List Span) : Multiset Span) else 0) =
    (if x.line_no = ln then (x.spans : Multiset Span) else 0) +
    (if lm.line_no = ln then (lm.spans : Multiset Span) else 0)
  by_cases hll : x.line_no = ln
  · rw [if_pos hll, if_pos hll, if_pos (hx.symm.trans hll)]
    exact (Multiset.coe_add _ _).symm
  · rw [if_neg hll, if_neg hll, if_neg (fun hc => hll (hx.trans hc))]
    simp

theorem combine_spans_length {a b : SearchResult} (ha : uniqueLineNos a) :
    ((combine_results a b).line_matches.map (fun lm => lm.spans.length)).sum =
      (a.line_matches.map (fun lm => lm.spans.length)).sum +
      (b.line_matches.map (fun lm => lm.spans.length)).sum := by
  refine combine_map_sum _ ?_ ha
  intro x lm _
  simp

theorem spanCount_combine {a b : SearchResult} (ha : uniqueLineNos a) :
    spanCount (combine_results a b) = spanCount a + spanCount b := by
  unfold spanCount
  have htitle : (combine_results a b).title_spans.length =
      a.title_spans.length + b.title_spans.length := by
    show (sortSpans (a.title_spans ++ b.title_spans)).length = _
    rw [(sortSpans_perm _).length_eq, List.length_append]
  rw [htitle, combine_spans_length ha]
  omega

theorem matchesInv_combine {a b : SearchResult} (hia : matchesInv a) (hib : matchesInv b)
    (ha : uniqueLineNos a) : matchesInv (combine_results a b) := by
  unfold matchesInv at *
  show a.matches' + b.matches' = spanCount (combine_results a b)
  rw [spanCount_combine ha, hia, hib]

/-! ### Query-engine invariants -/

theorem search_sonnet_matchesInv (s : Sonnet) (q : List Char) :
    matchesInv (search_sonnet s q) :=
  rfl

theorem search_sonnet_uniqueLineNos (s : Sonnet) (q : List Char) :
    uniqueLineNos (search_sonnet s q) :=
  (searchLines_pairwise (q := lowerStr q) s.lines 1).map LineMatch.line_no
    (fun _ _ h => Nat.ne_of_lt h)

theorem mem_zipWith_decomp {α β γ : Type} {f : α → β → γ} :
    ∀ {l₁ : List α} {l₂ : List β} {c : γ}, c ∈ List.zipWith f l₁ l₂ →
      ∃ a ∈ l₁, ∃ b ∈ l₂, c = f a b := by
  intro l₁
  induction l₁ with
  | nil => intro l₂ c h; simp at h
  | cons x xs ih =>
    intro l₂ c h
    cases l₂ with
    | nil => simp at h
    | cons y ys =>
      rw [List.zipWith_cons_cons] at h
      rcases List.mem_cons.mp h with h | h
      · exact ⟨x, List.mem_cons_self _ _, y, List.mem_cons_self _ _, h⟩
      · obtain ⟨a, ha, b, hb, hc⟩ := ih h
        exact ⟨a, List.mem_cons_of_mem _ ha, b, List.mem_cons_of_mem _ hb, hc⟩

theorem evaluateQuery_or_inv :
    ∀ (sonnets : List Sonnet) (words : List (List Char)),
      ∀ r ∈ evaluateQuery Mode.OR sonnets words, matchesInv r ∧ uniqueLineNos r := by
  intro sonnets words
  cases words with
  | nil => intro r h; simp [evaluateQuery] at h
  | cons w ws =>
    rw [evaluateQuery]
    have hinit : ∀ r ∈ sonnets.map (fun s => search_sonnet s w),
        matchesInv r ∧ uniqueLineNos r := by
      intro r h
      obtain ⟨s, -, rfl⟩ := List.mem_map.mp h
      exact ⟨search_sonnet_matchesInv s w, search_sonnet_uniqueLineNos s w⟩
    revert hinit
    generalize sonnets.map (fun s => search_sonnet s w) = accs
    induction ws generalizing accs with
    | nil => intro h; exact h
    | cons w' ws' ih =>
      intro haccs
      rw [List.foldl_cons]
      refine ih _ ?_
      intro r hr
      obtain ⟨acc, hacc, res, hres, rfl⟩ := mem_zipWith_decomp hr
      obtain ⟨s, -, rfl⟩ := List.mem_map.mp hres
      obtain ⟨hiacc, huacc⟩ := haccs acc hacc
      exact ⟨matchesInv_combine hiacc (search_sonnet_matchesInv s w') huacc,
        uniqueLineNos_combine huacc⟩

/-- C4: combining per-document results is associative and commutative in its
numeric effect — same final `matches` count, same multiset of title spans,
and same multiset of spans per line number — for operands whose line matches
are keyed by unique line numbers (as every result produced by
`search_sonnet` is, and as `combine_results` preserves), so folding the same
term results in any order yields the same final counts and span multisets. -/
theorem claim_C4 (a b c : SearchResult) (ha : uniqueLineNos a) (hb : uniqueLineNos b) :
    ((combine_results a b).matches' = (combine_results b a).matches' ∧
     ((combine_results a b).title_spans : Multiset Span) =
       ((combine_results b a).title_spans : Multiset Span) ∧
     ∀ ln : Nat, lineSpansAt (combine_results a b).line_matches ln =
       lineSpansAt (combine_results b a).line_matches ln) ∧
    ((combine_results (combine_results a b) c).matches' =
       (combine_results a (combine_results b c)).matches' ∧
     ((combine_results (combine_results a b) c).title_spans : Multiset Span) =
       ((combine_results a (combine_results b c)).title_spans : Multiset Span) ∧
     ∀ ln : Nat, lineSpansAt (combine_results (combine_results a b) c).line_matches ln =
       lineSpansAt (combine_results a (combine_results b c)).line_matches ln) := by
  refine ⟨⟨Nat.add_comm _ _, ?_, ?_⟩, ⟨Nat.add_assoc _ _ _, ?_, ?_⟩⟩
  · rw [combine_title_multiset, combine_title_multiset]
    exact add_comm _ _
  · intro ln
    rw [combine_lineSpansAt ha ln, combine_lineSpansAt hb ln]
    exact add_comm _ _
  · rw [combine_title_multiset, combine_title_multiset, combine_title_multiset,
      combine_title_multiset]
    exact add_assoc _ _ _
  · intro ln
    rw [combine_lineSpansAt (uniqueLineNos_combine ha) ln, combine_lineSpansAt ha ln,
      combine_lineSpansAt ha ln, combine_lineSpansAt hb ln]
    exact add_assoc _ _ _

/-- Witness for C4 at concrete results with unique line numbers. -/
theorem claim_C4_witness :
    (combine_results ⟨['t'], [(0, 1)], [⟨1, ['a'], [(0, 1)]⟩], 2⟩
        ⟨['t'], [], [⟨1, ['a'], [(0, 1)]⟩], 1⟩).matches' =
      (combine_results ⟨['t'], [], [⟨1, ['a'], [(0, 1)]⟩], 1⟩
        ⟨['t'], [(0, 1)], [⟨1, ['a'], [(0, 1)]⟩], 2⟩).matches' ∧
    lineSpansAt (combine_results
        (combine_results ⟨['t'], [(0, 1)], [⟨1, ['a'], [(0, 1)]⟩], 2⟩
          ⟨['t'], [], [⟨1, ['a'], [(0, 1)]⟩], 1⟩)
        ⟨['t'], [], [⟨2, ['b'], [(0, 1)]⟩], 1⟩).line_matches 1 =
      lineSpansAt (combine_results ⟨['t'], [(0, 1)], [⟨1, ['a'], [(0, 1)]⟩], 2⟩
        (combine_results ⟨['t'], [], [⟨1, ['a'], [(0, 1)]⟩], 1⟩
          ⟨['t'], [], [⟨2, ['b'], [(0, 1)]⟩], 1⟩)).line_matches 1 :=
  ⟨(claim_C4 ⟨['t'], [(0, 1)], [⟨1, ['a'], [(0, 1)]⟩], 2⟩
      ⟨['t'], [], [⟨1, ['a'], [(0, 1)]⟩], 1⟩ ⟨['t'], [], [⟨2, ['b'], [(0, 1)]⟩], 1⟩
      (by unfold uniqueLineNos; decide) (by unfold uniqueLineNos; decide)).1.1,
   (claim_C4 ⟨['t'], [(0, 1)], [⟨1, ['a'], [(0, 1)]⟩], 2⟩
      ⟨['t'], [], [⟨1, ['a'], [(0, 1)]⟩], 1⟩ ⟨['t'], [], [⟨2, ['b'], [(0, 1)]⟩], 1⟩
      (by unfold uniqueLineNos; decide) (by unfold uniqueLineNos; decide)).2.2.2 1⟩

/-- C1 as stated is false: in AND mode a gate-zeroing accumulation step sets
`matches` to 0 while leaving the span data of the prior terms in place, so
the bookkeeping equality fails for that accumulator.  Concretely, for the
corpus containing the single document titled "love" (no lines) and the query
"love z" in AND mode, the final accumulator has `matches == 0` but one title
span, so `matches ≠ len(title_spans) + sum(len(lm.spans))`. -/
theorem claim_C1_counterexample :
    evaluateQuery Mode.AND [⟨['l', 'o', 'v', 'e'], []⟩] [['l', 'o', 'v', 'e'], ['z']] =
      [⟨['l', 'o', 'v', 'e'], [(0, 4)], [], 0⟩] ∧
    ¬ matchesInv ⟨['l', 'o', 'v', 'e'], [(0, 4)], [], 0⟩ := by
  constructor
  · decide
  · unfold matchesInv spanCount; decide

/-- C1 (amended): `matches == len(title_spans) + sum(len(lm.spans) for lm in
line_matches)` holds for every result of `search_sonnet`, is preserved by
`combine_results` whenever both inputs satisfy it (and the left input's line
matches are keyed by unique line numbers, which all engine-produced results
are), and holds for every accumulator produced by the query engine in OR
mode; in AND mode it holds except after a gate-zeroing step, which leaves
`matches == 0` with the prior span data untouched. -/
theorem claim_C1 :
    (∀ (s : Sonnet) (q : List Char), matchesInv (search_sonnet s q)) ∧
    (∀ a b : SearchResult, matchesInv a → matchesInv b → uniqueLineNos a →
      matchesInv (combine_results a b)) ∧
    (∀ (sonnets : List Sonnet) (words : List (List Char)),
      ∀ r ∈ evaluateQuery Mode.OR sonnets words, matchesInv r) :=
  ⟨search_sonnet_matchesInv,
   fun _ _ hia hib ha => matchesInv_combine hia hib ha,
   fun sonnets words r hr => (evaluateQuery_or_inv sonnets words r hr).1⟩

/-- Witness for C1 (amended) at concrete results. -/
theorem claim_C1_witness :
    matchesInv (combine_results ⟨['t'], [(0, 1)], [], 1⟩ ⟨['t'], [], [], 0⟩) :=
  claim_C1.2.1 ⟨['t'], [(0, 1)], [], 1⟩ ⟨['t'], [], [], 0⟩
    (by unfold matchesInv spanCount; decide) (by unfold matchesInv spanCount; decide)
    (by unfold uniqueLineNos; decide)
